import Mathlib

/-!
Verification development for the n-gram / Jaccard plagiarism checker in
src/main.c.

Bytes are modelled as `Nat` (actual runs only produce values 0–255), and a C
byte buffer as `List Nat`; a C string ends at its first NUL byte, which
`c_str` makes explicit.  C `int` counters are modelled as `Nat` (cast to `Int`
where the C code subtracts): with the 1,000,000-byte input bound every count
stays far below 2^31, so machine overflow is unreachable.  The `float`
similarity value is modelled as the exact rational value of the division the
code performs; the properties proved here (symmetry, range, identity) are
preserved by IEEE rounding since the rounding function is deterministic and
monotone with 0 and 1 exactly representable.
-/

namespace PlagiarismCheck

/-- `N_GRAM` from main.c: the checker uses 3-grams. -/
def N_GRAM : Nat := 3

/-- `MAX_FILE_SIZE` from main.c: the input buffers hold 1,000,000 bytes. -/
def MAX_FILE_SIZE : Nat := 1000000

/-- `HASH_TABLE_SIZE` from main.c: number of buckets of each hash table. -/
def HASH_TABLE_SIZE : Nat := 100003

/-- Content of the C string stored in a byte buffer: everything before the
first NUL byte.  This is the view that all the `char *` loops of main.c see. -/
def c_str (buf : List Nat) : List Nat := buf.takeWhile (fun b => decide (b ≠ 0))

/-- Case folding of a single byte as in `to_lower_case` of main.c: ASCII
`A`–`Z` gets 32 added.  High-bit bytes fail the `<= 'Z'` comparison in the
byte model (and the `>= 'A'` comparison with a signed C `char`), so they are
left unchanged either way. -/
def lower_byte (b : Nat) : Nat := if 65 ≤ b ∧ b ≤ 90 then b + 32 else b

/-- `to_lower_case` from main.c: walks the buffer up to the first NUL byte and
folds each ASCII uppercase letter; the result is the new C string content. -/
def to_lower_case : List Nat → List Nat
  | [] => []
  | b :: rest => if b = 0 then [] else lower_byte b :: to_lower_case rest

/-- `isalnum` of the default C locale: ASCII digits and letters. -/
def isalnum (b : Nat) : Bool :=
  decide ((48 ≤ b ∧ b ≤ 57) ∨ (65 ≤ b ∧ b ≤ 90) ∨ (97 ≤ b ∧ b ≤ 122))

/-- The keep test of `remove_punctuation` in main.c:
`isalnum((unsigned char)c) || c == ' ' || (c & 0x80)`. -/
def keep_byte (b : Nat) : Bool := isalnum b || decide (b = 32) || decide (128 ≤ b)

/-- `remove_punctuation` from main.c: copies the kept bytes forward over the
buffer and re-terminates; the result is the new C string content. -/
def remove_punctuation : List Nat → List Nat
  | [] => []
  | b :: rest =>
    if b = 0 then []
    else if keep_byte b then b :: remove_punctuation rest
    else remove_punctuation rest

/-- The text preprocessing performed by `main`: `to_lower_case` first, then
`remove_punctuation`. -/
def normalize (buf : List Nat) : List Nat :=
  remove_punctuation (to_lower_case buf)

/-- One step of the DJB2 loop `hash = ((hash << 5) + hash) + c` on
`unsigned int`: multiply by 33 and add the `char` read, which is
sign-extended (a byte ≥ 0x80 becomes negative, i.e. contributes an extra
2^32 - 256 after conversion to `unsigned int`), all modulo 2^32. -/
def hash_step (h b : Nat) : Nat :=
  (33 * h + (if b < 128 then b else b + 4294967040)) % 4294967296

/-- `hash_function` from main.c: DJB2 over the string (the loop stops at the
terminating NUL), reduced modulo the table size. -/
def hash_function (s : List Nat) (table_size : Nat) : Nat :=
  ((c_str s).foldl hash_step 5381) % table_size

/-- `NGramNode` from main.c: one stored n-gram with its occurrence count (the
`next` pointer is the tail of the bucket list in this model). -/
structure NGramNode where
  gram : List Nat
  count : Nat
  deriving DecidableEq

/-- `HashTable` from main.c: a bucket array of chained nodes. -/
structure HashTable where
  size : Nat
  table : List (List NGramNode)
  deriving DecidableEq

/-- `create_hash_table` from main.c: `size` empty (calloc'd) buckets. -/
def create_hash_table (size : Nat) : HashTable :=
  ⟨size, List.replicate size []⟩

/-- The chain walk of `addhash`: increment the count of the first node whose
gram compares equal (`strcmp == 0`) to `gram`; `none` when no node matches. -/
def bucket_inc (gram : List Nat) : List NGramNode → Option (List NGramNode)
  | [] => none
  | n :: rest =>
    if n.gram = gram then some (⟨n.gram, n.count + 1⟩ :: rest)
    else
      match bucket_inc gram rest with
      | some rest2 => some (n :: rest2)
      | none => none

/-- `addhash` from main.c: find-and-increment in the bucket `gram` hashes to,
otherwise push a new node at the head of that bucket; `strncpy` truncates the
stored key to `N_GRAM` bytes. -/
def addhash (ht : HashTable) (gram : List Nat) : HashTable :=
  let idx := hash_function gram ht.size
  let b := ht.table.getD idx []
  match bucket_inc gram b with
  | some b2 => ⟨ht.size, ht.table.set idx b2⟩
  | none => ⟨ht.size, ht.table.set idx (⟨gram.take N_GRAM, 1⟩ :: b)⟩

/-- The first node of a chain whose gram compares equal to `gram` (the inner
lookup loop of `get_intersection_count`). -/
def bucket_find (gram : List Nat) : List NGramNode → Option NGramNode
  | [] => none
  | n :: rest => if n.gram = gram then some n else bucket_find gram rest

/-- Lookup of a gram in the bucket it hashes to. -/
def ht_find (ht : HashTable) (gram : List Nat) : Option NGramNode :=
  bucket_find gram (ht.table.getD (hash_function gram ht.size) [])

/-- Contribution of one node of the first table in `get_intersection_count`:
the smaller of the two counts when the gram is found in the second table,
otherwise 0. -/
def node_contrib (ht2 : HashTable) (n : NGramNode) : Nat :=
  match ht_find ht2 n.gram with
  | some m => min n.count m.count
  | none => 0

/-- `get_intersection_count` from main.c: iterate over every node of the first
table and add the minimum-count contribution found in the second table.  (The
C loop runs the bucket index over `0 .. ht1->size - 1`; every table the
program builds has exactly `size` buckets, which the model's `table` list
represents directly.) -/
def get_intersection_count (ht1 ht2 : HashTable) : Nat :=
  (ht1.table.map (fun b => (b.map (node_contrib ht2)).sum)).sum

/-- Sum of all counts stored in a table — one of the two accumulation loops of
`get_union_count`. -/
def total_count (ht : HashTable) : Nat :=
  (ht.table.map (fun b => (b.map NGramNode.count).sum)).sum

/-- `get_union_count` from main.c: the two totals added; the caller subtracts
the intersection afterwards. -/
def get_union_count (ht1 ht2 : HashTable) : Nat :=
  total_count ht1 + total_count ht2

/-- `calculate_jaccard_similarity` from main.c, with the `float` division
modelled as exact rational division: subtract the intersection from the union
total, return 0 when that is 0, else the quotient. -/
def calculate_jaccard_similarity (ht1 ht2 : HashTable) : ℚ :=
  let intersection : Int := get_intersection_count ht1 ht2
  let union_total : Int := (get_union_count ht1 ht2 : Int) - intersection
  if union_total = 0 then 0 else (intersection : ℚ) / (union_total : ℚ)

/-- The window of `N_GRAM` bytes starting at byte offset `i`. -/
def ngram_at (text : List Nat) (i : Nat) : List Nat := (text.drop i).take N_GRAM

/-- `generate_ngrams` from main.c: window offsets `0 .. strlen(text) - N_GRAM`
(none when `strlen(text) < N_GRAM`, since the C subtraction goes negative),
adding each window's exact `N_GRAM`-byte substring to the table. -/
def generate_ngrams (buf : List Nat) (ht : HashTable) : HashTable :=
  let text := c_str buf
  (List.range (text.length + 1 - N_GRAM)).foldl
    (fun h i => addhash h (ngram_at text i)) ht

/-- A ShingleSet as main.c builds one: a fresh `HASH_TABLE_SIZE` table filled
by `generate_ngrams`. -/
def build_shingle_set (buf : List Nat) : HashTable :=
  generate_ngrams buf (create_hash_table HASH_TABLE_SIZE)

/-- The file read of `main` in main.c, on a file whose byte content is
`content`: `fread(buf, 1, MAX_FILE_SIZE - 1, f)` reads at most
`MAX_FILE_SIZE - 1` bytes, and a NUL terminator is stored after them. -/
def read_into_buffer (content : List Nat) : List Nat :=
  content.take (MAX_FILE_SIZE - 1) ++ [0]

/-! ## Abstraction functions

The multiset view of a table: per-gram stored count, per-gram number of
entries, and the stored key list.  These are the quantities the spec's
ShingleSet model talks about. -/

/-- Total count stored for gram `g` in one chain. -/
def bcount (g : List Nat) (b : List NGramNode) : Nat :=
  ((b.filter (fun n => decide (n.gram = g))).map NGramNode.count).sum

/-- Total count stored for gram `g` in the whole table. -/
def mcount (ht : HashTable) (g : List Nat) : Nat :=
  (ht.table.map (bcount g)).sum

/-- Number of entries of one chain holding gram `g`. -/
def bentries (g : List Nat) (b : List NGramNode) : Nat :=
  (b.filter (fun n => decide (n.gram = g))).length

/-- Number of entries of the whole table holding gram `g`. -/
def entries (ht : HashTable) (g : List Nat) : Nat :=
  (ht.table.map (bentries g)).sum

/-- Every gram stored in the table, bucket by bucket. -/
def ht_grams (ht : HashTable) : List (List Nat) :=
  (ht.table.map (fun b => b.map NGramNode.gram)).flatten

/-- The key set of a table. -/
def keys (ht : HashTable) : Finset (List Nat) := (ht_grams ht).toFinset

/-- Number of sliding-window offsets of the buffer's C string whose window
equals `g`. -/
def window_count (buf : List Nat) (g : List Nat) : Nat :=
  ((List.range ((c_str buf).length + 1 - N_GRAM)).filter
    (fun i => decide (ngram_at (c_str buf) i = g))).length

/-! ## Spec-side definitions

These follow the spec's words, for the refinement comparison against the code
functions above. -/

/-- Spec-side definition (refinement comparison): Intersection is the sum over
every shingle key present in both A and B of the minimum of the two counts. -/
def spec_intersection (A B : HashTable) : Nat :=
  ∑ g ∈ keys A ∩ keys B, min (mcount A g) (mcount B g)

/-- Spec-side definition (refinement comparison): `total(X)`, the sum of all
counts of X. -/
def spec_total (A : HashTable) : Nat := ∑ g ∈ keys A, mcount A g

/-- Spec-side definition (refinement comparison): the score is
Intersection / Union with `Union = total(A) + total(B) - Intersection`, and
0 when the union is 0. -/
def spec_score (A B : HashTable) : ℚ :=
  let i : Int := spec_intersection A B
  let u : Int := (spec_total A : Int) + (spec_total B : Int) - i
  if u = 0 then 0 else (i : ℚ) / (u : ℚ)

/-- Spec-side definition (refinement comparison) of per-byte normalization:
an ASCII uppercase letter folds to its lowercase counterpart, every other
byte ≤ 0x7F survives exactly when it is alphanumeric or a space, and every
high-bit byte survives verbatim. -/
def spec_norm_byte (b : Nat) : Option Nat :=
  if 65 ≤ b ∧ b ≤ 90 then some (b + 32)
  else if 128 ≤ b then some b
  else if isalnum b = true ∨ b = 32 then some b
  else none

/-- Well-formedness of a hash table, as `create_hash_table` establishes it and
`addhash` maintains it: positive size, exactly `size` buckets, every node
chained in the bucket its gram hashes to, and no two nodes of one chain with
the same gram. -/
structure WF (ht : HashTable) : Prop where
  size_pos : 0 < ht.size
  len_eq : ht.table.length = ht.size
  hash_ok : ∀ i : Nat, ∀ n ∈ ht.table.getD i [], hash_function n.gram ht.size = i
  chain_nodup : ∀ i : Nat, ((ht.table.getD i []).map NGramNode.gram).Nodup

/-! ## Generic list helpers -/

theorem getD_set_self {α : Type _} (l : List α) (i : Nat) (x d : α)
    (h : i < l.length) : (l.set i x).getD i d = x := by
  rw [List.getD_eq_getElem?_getD, List.getElem?_set_eq_of_lt x h]
  rfl

theorem getD_set_ne {α : Type _} (l : List α) {i j : Nat} (x d : α)
    (h : i ≠ j) : (l.set i x).getD j d = l.getD j d := by
  rw [List.getD_eq_getElem?_getD, List.getD_eq_getElem?_getD,
    List.getElem?_set_ne h]

theorem getD_get {α : Type _} (l : List α) (i : Nat) (d : α)
    (h : i < l.length) : l.getD i d = l.get ⟨i, h⟩ := by
  rw [List.getD_eq_getElem?_getD, List.getElem?_eq_getElem h, Option.getD_some,
    List.get_eq_getElem]

theorem sum_map_set {α : Type _} (f : α → Nat) (l : List α) :
    ∀ (i : Nat) (x : α) (h : i < l.length),
      ((l.set i x).map f).sum + f (l.get ⟨i, h⟩) = (l.map f).sum + f x := by
  induction l with
  | nil => intro i x h; simp at h
  | cons a t ih =>
    intro i x h
    cases i with
    | zero => simp [List.set]; omega
    | succ j =>
      have hj : j < t.length := by simpa using Nat.lt_of_succ_lt_succ h
      have hrec := ih j x hj
      simp only [List.set, List.map_cons, List.sum_cons, List.get]
      omega

theorem sum_map_eq_of_single {α : Type _} (f : α → Nat) (l : List α) (i : Nat)
    (hi : i < l.length)
    (h0 : ∀ (j : Nat) (hj : j < l.length), j ≠ i → f (l.get ⟨j, hj⟩) = 0) :
    (l.map f).sum = f (l.get ⟨i, hi⟩) := by
  induction l generalizing i with
  | nil => simp at hi
  | cons a t ih =>
    cases i with
    | zero =>
      simp only [List.map_cons, List.sum_cons, List.get]
      have ht0 : (t.map f).sum = 0 := by
        apply List.sum_eq_zero
        intro x hx
        obtain ⟨y, hy, rfl⟩ := List.mem_map.mp hx
        obtain ⟨⟨j, hj⟩, rfl⟩ := List.mem_iff_get.mp hy
        have := h0 (j + 1) (Nat.succ_lt_succ hj) (Nat.succ_ne_zero j)
        simpa [List.get] using this
      omega
    | succ j =>
      have hj : j < t.length := Nat.lt_of_succ_lt_succ hi
      have ha : f a = 0 := by
        have := h0 0 (Nat.succ_pos _) (by omega)
        simpa [List.get] using this
      have hrec := ih j hj (fun k hk hne => by
        have := h0 (k + 1) (Nat.succ_lt_succ hk) (by omega)
        simpa [List.get] using this)
      simp only [List.map_cons, List.sum_cons, List.get]
      omega

/-! ## Chain-level lemmas -/

theorem bcount_nil (x : List Nat) : bcount x [] = 0 := rfl

theorem bcount_cons (x : List Nat) (n : NGramNode) (b : List NGramNode) :
    bcount x (n :: b) = (if n.gram = x then n.count else 0) + bcount x b := by
  by_cases h : n.gram = x <;> simp [bcount, List.filter_cons, h]

theorem bentries_nil (x : List Nat) : bentries x [] = 0 := rfl

theorem bentries_cons (x : List Nat) (n : NGramNode) (b : List NGramNode) :
    bentries x (n :: b) = (if n.gram = x then 1 else 0) + bentries x b := by
  by_cases h : n.gram = x
  · simp [bentries, List.filter_cons, h]
    omega
  · simp [bentries, List.filter_cons, h]

theorem bcount_eq_zero {x : List Nat} {b : List NGramNode}
    (h : ∀ n ∈ b, n.gram ≠ x) : bcount x b = 0 := by
  induction b with
  | nil => rfl
  | cons n rest ih =>
    rw [bcount_cons, if_neg (h n (List.mem_cons_self n rest)),
      ih (fun m hm => h m (List.mem_cons_of_mem n hm))]

theorem bentries_eq_zero {x : List Nat} {b : List NGramNode}
    (h : ∀ n ∈ b, n.gram ≠ x) : bentries x b = 0 := by
  induction b with
  | nil => rfl
  | cons n rest ih =>
    rw [bentries_cons, if_neg (h n (List.mem_cons_self n rest)),
      ih (fun m hm => h m (List.mem_cons_of_mem n hm))]

theorem bentries_pos {x : List Nat} {b : List NGramNode} {n : NGramNode}
    (hmem : n ∈ b) (hg : n.gram = x) : 1 ≤ bentries x b := by
  induction b with
  | nil => simp at hmem
  | cons m rest ih =>
    rcases List.mem_cons.mp hmem with h | h
    · subst h; rw [bentries_cons, if_pos hg]; omega
    · rw [bentries_cons]; have := ih h; omega

theorem bentries_le_one {x : List Nat} {b : List NGramNode}
    (hnd : (b.map NGramNode.gram).Nodup) : bentries x b ≤ 1 := by
  induction b with
  | nil => simp [bentries_nil]
  | cons n rest ih =>
    rw [List.map_cons, List.nodup_cons] at hnd
    rw [bentries_cons]
    by_cases h : n.gram = x
    · rw [if_pos h]
      have h0 : bentries x rest = 0 := by
        apply bentries_eq_zero
        intro m hm hmx
        exact hnd.1 (by
          rw [h, ← hmx]
          exact List.mem_map_of_mem NGramNode.gram hm)
      omega
    · rw [if_neg h]; have := ih hnd.2; omega

theorem filter_eq_single {b : List NGramNode} {n : NGramNode} {g : List Nat}
    (hnd : (b.map NGramNode.gram).Nodup) (hmem : n ∈ b) (hg : n.gram = g) :
    b.filter (fun m => decide (m.gram = g)) = [n] := by
  induction b with
  | nil => simp at hmem
  | cons m rest ih =>
    rw [List.map_cons, List.nodup_cons] at hnd
    rcases List.mem_cons.mp hmem with h | h
    · subst h
      rw [List.filter_cons, if_pos (by simp [hg])]
      have : rest.filter (fun k => decide (k.gram = g)) = [] := by
        rw [List.filter_eq_nil_iff]
        intro k hk
        simp only [decide_eq_true_eq]
        intro hkg
        exact hnd.1 (by
          rw [hg, ← hkg]
          exact List.mem_map_of_mem NGramNode.gram hk)
      rw [this]
    · have hmg : ¬(m.gram = g) := by
        intro hmg
        exact hnd.1 (by
          rw [hmg, ← hg]
          exact List.mem_map_of_mem NGramNode.gram h)
      rw [List.filter_cons, if_neg (by simp [hmg])]
      exact ih hnd.2 h

theorem bcount_eq_of_mem {b : List NGramNode} {n : NGramNode} {g : List Nat}
    (hnd : (b.map NGramNode.gram).Nodup) (hmem : n ∈ b) (hg : n.gram = g) :
    bcount g b = n.count := by
  rw [bcount, filter_eq_single hnd hmem hg]
  simp

/-! ## bucket_inc and bucket_find -/

theorem bucket_inc_none {g : List Nat} : ∀ {b : List NGramNode},
    bucket_inc g b = none ↔ ∀ n ∈ b, n.gram ≠ g := by
  intro b
  induction b with
  | nil => simp [bucket_inc]
  | cons n rest ih =>
    simp only [bucket_inc]
    by_cases hg : n.gram = g
    · simp [hg]
    · rw [if_neg hg]
      cases hrec : bucket_inc g rest with
      | some r2 =>
        constructor
        · intro h; simp at h
        · intro h
          have hnone : bucket_inc g rest = none :=
            ih.mpr (fun m hm => h m (List.mem_cons_of_mem n hm))
          rw [hnone] at hrec
          simp at hrec
      | none =>
        constructor
        · intro _ m hm
          rcases List.mem_cons.mp hm with h | h
          · rw [h]; exact hg
          · exact ih.mp hrec m h
        · intro _; rfl

theorem bucket_inc_some {g : List Nat} : ∀ {b b2 : List NGramNode},
    bucket_inc g b = some b2 →
      b2.map NGramNode.gram = b.map NGramNode.gram ∧
      (b2.map NGramNode.count).sum = (b.map NGramNode.count).sum + 1 ∧
      (∀ x, bcount x b2 = bcount x b + if x = g then 1 else 0) ∧
      (∀ x, bentries x b2 = bentries x b) := by
  intro b
  induction b with
  | nil => intro b2 h; simp [bucket_inc] at h
  | cons n rest ih =>
    intro b2 h
    simp only [bucket_inc] at h
    by_cases hg : n.gram = g
    · rw [if_pos hg] at h
      rw [Option.some_inj] at h
      subst h
      refine ⟨by simp, by simp; omega, ?_, ?_⟩
      · intro x
        rw [bcount_cons, bcount_cons]
        by_cases hx : n.gram = x
        · have : x = g := by rw [← hx, hg]
          simp [hx, this]
          omega
        · have : ¬(x = g) := by
            intro he; exact hx (by rw [he, ← hg])
          simp [hx, this]
      · intro x
        rw [bentries_cons, bentries_cons]
    · rw [if_neg hg] at h
      cases hrec : bucket_inc g rest with
      | none => rw [hrec] at h; exact absurd h (by simp)
      | some r2 =>
        rw [hrec] at h
        rw [Option.some_inj] at h
        subst h
        obtain ⟨h1, h2, h3, h4⟩ := ih hrec
        refine ⟨by simp [h1], by simp; omega, ?_, ?_⟩
        · intro x
          rw [bcount_cons, bcount_cons, h3 x]
          omega
        · intro x
          rw [bentries_cons, bentries_cons, h4 x]

theorem bucket_find_none {g : List Nat} : ∀ {b : List NGramNode},
    bucket_find g b = none ↔ ∀ n ∈ b, n.gram ≠ g := by
  intro b
  induction b with
  | nil => simp [bucket_find]
  | cons n rest ih =>
    simp only [bucket_find]
    by_cases hg : n.gram = g
    · simp [hg]
    · rw [if_neg hg, ih]
      constructor
      · intro h m hm
        rcases List.mem_cons.mp hm with h' | h'
        · subst h'; exact hg
        · exact h m h'
      · intro h m hm; exact h m (List.mem_cons_of_mem n hm)

theorem bucket_find_some {g : List Nat} : ∀ {b : List NGramNode} {n : NGramNode},
    bucket_find g b = some n → n.gram = g ∧ n ∈ b := by
  intro b
  induction b with
  | nil => intro n h; simp [bucket_find] at h
  | cons m rest ih =>
    intro n h
    simp only [bucket_find] at h
    by_cases hg : m.gram = g
    · rw [if_pos hg, Option.some_inj] at h
      subst h
      exact ⟨hg, List.mem_cons_self m rest⟩
    · rw [if_neg hg] at h
      obtain ⟨h1, h2⟩ := ih h
      exact ⟨h1, List.mem_cons_of_mem m h2⟩

/-! ## Table-level lemmas -/

theorem hash_lt (s : List Nat) {n : Nat} (h : 0 < n) : hash_function s n < n := by
  unfold hash_function
  exact Nat.mod_lt _ h

theorem addhash_def (ht : HashTable) (gram : List Nat) :
    addhash ht gram =
      match bucket_inc gram (ht.table.getD (hash_function gram ht.size) []) with
      | some b2 => ⟨ht.size, ht.table.set (hash_function gram ht.size) b2⟩
      | none => ⟨ht.size, ht.table.set (hash_function gram ht.size)
          (⟨gram.take N_GRAM, 1⟩ ::
            ht.table.getD (hash_function gram ht.size) [])⟩ := rfl

theorem mcount_eq_bcount {ht : HashTable} (hwf : WF ht) (g : List Nat) :
    mcount ht g = bcount g (ht.table.getD (hash_function g ht.size) []) := by
  have hidx : hash_function g ht.size < ht.table.length := by
    rw [hwf.len_eq]
    exact hash_lt _ hwf.size_pos
  have h0 : ∀ (j : Nat) (hj : j < ht.table.length), j ≠ hash_function g ht.size →
      bcount g (ht.table.get ⟨j, hj⟩) = 0 := by
    intro j hj hne
    apply bcount_eq_zero
    intro n hn hng
    apply hne
    rw [← getD_get ht.table j [] hj] at hn
    rw [← hwf.hash_ok j n hn, hng]
  simp only [mcount]
  rw [sum_map_eq_of_single (bcount g) ht.table (hash_function g ht.size) hidx h0,
    getD_get ht.table (hash_function g ht.size) [] hidx]

theorem entries_eq_bentries {ht : HashTable} (hwf : WF ht) (g : List Nat) :
    entries ht g = bentries g (ht.table.getD (hash_function g ht.size) []) := by
  have hidx : hash_function g ht.size < ht.table.length := by
    rw [hwf.len_eq]
    exact hash_lt _ hwf.size_pos
  have h0 : ∀ (j : Nat) (hj : j < ht.table.length), j ≠ hash_function g ht.size →
      bentries g (ht.table.get ⟨j, hj⟩) = 0 := by
    intro j hj hne
    apply bentries_eq_zero
    intro n hn hng
    apply hne
    rw [← getD_get ht.table j [] hj] at hn
    rw [← hwf.hash_ok j n hn, hng]
  simp only [entries]
  rw [sum_map_eq_of_single (bentries g) ht.table (hash_function g ht.size) hidx h0,
    getD_get ht.table (hash_function g ht.size) [] hidx]

theorem mcount_of_node {ht : HashTable} (hwf : WF ht) {bl : List NGramNode}
    {n : NGramNode} (hbl : bl ∈ ht.table) (hn : n ∈ bl) :
    mcount ht n.gram = n.count := by
  obtain ⟨⟨j, hj⟩, rfl⟩ := List.mem_iff_get.mp hbl
  have hget : ht.table.getD j [] = ht.table.get ⟨j, hj⟩ := getD_get _ _ _ hj
  have hhash : hash_function n.gram ht.size = j :=
    hwf.hash_ok j n (by rw [hget]; exact hn)
  rw [mcount_eq_bcount hwf, hhash, hget]
  exact bcount_eq_of_mem (by
    have := hwf.chain_nodup j
    rw [hget] at this
    exact this) hn rfl

theorem node_contrib_eq {ht2 : HashTable} (hwf : WF ht2) (n : NGramNode) :
    node_contrib ht2 n = min n.count (mcount ht2 n.gram) := by
  unfold node_contrib ht_find
  cases hf : bucket_find n.gram
      (ht2.table.getD (hash_function n.gram ht2.size) []) with
  | none =>
    have h0 : mcount ht2 n.gram = 0 := by
      rw [mcount_eq_bcount hwf]
      exact bcount_eq_zero (bucket_find_none.mp hf)
    rw [h0]
    simp
  | some m =>
    obtain ⟨hg, hmem⟩ := bucket_find_some hf
    have hidx : hash_function n.gram ht2.size < ht2.table.length := by
      rw [hwf.len_eq]
      exact hash_lt _ hwf.size_pos
    have hbl : ht2.table.getD (hash_function n.gram ht2.size) [] ∈ ht2.table := by
      rw [getD_get _ _ _ hidx]
      exact List.get_mem _ _ _
    have hmc := mcount_of_node hwf hbl hmem
    rw [hg] at hmc
    rw [hmc]

theorem addhash_size (ht : HashTable) (gram : List Nat) :
    (addhash ht gram).size = ht.size := by
  rw [addhash_def]
  cases bucket_inc gram (ht.table.getD (hash_function gram ht.size) []) <;> rfl

theorem mcount_addhash {ht : HashTable} {gram : List Nat} (hwf : WF ht)
    (hg : gram.take N_GRAM = gram) (x : List Nat) :
    mcount (addhash ht gram) x = mcount ht x + if x = gram then 1 else 0 := by
  have hidx : hash_function gram ht.size < ht.table.length := by
    rw [hwf.len_eq]
    exact hash_lt _ hwf.size_pos
  have hget : ht.table.getD (hash_function gram ht.size) [] =
      ht.table.get ⟨hash_function gram ht.size, hidx⟩ :=
    getD_get _ _ _ hidx
  rw [addhash_def]
  cases hbi : bucket_inc gram (ht.table.getD (hash_function gram ht.size) []) with
  | some b2 =>
    obtain ⟨-, -, h3, -⟩ := bucket_inc_some hbi
    have hs := sum_map_set (bcount x) ht.table (hash_function gram ht.size) b2 hidx
    rw [← hget] at hs
    have hb2 := h3 x
    simp only [mcount]
    by_cases hx : x = gram
    · rw [if_pos hx] at hb2
      rw [if_pos hx]
      omega
    · rw [if_neg hx] at hb2
      rw [if_neg hx]
      omega
  | none =>
    have hball := bucket_inc_none.mp hbi
    have hs := sum_map_set (bcount x) ht.table (hash_function gram ht.size)
      (⟨gram.take N_GRAM, 1⟩ :: ht.table.getD (hash_function gram ht.size) []) hidx
    rw [← hget] at hs
    have hhead : bcount x
        (⟨gram.take N_GRAM, 1⟩ :: ht.table.getD (hash_function gram ht.size) []) =
        (if gram = x then 1 else 0) +
          bcount x (ht.table.getD (hash_function gram ht.size) []) := by
      rw [bcount_cons, hg]
    simp only [mcount]
    by_cases hx : x = gram
    · rw [if_pos hx.symm] at hhead
      rw [if_pos hx]
      omega
    · rw [if_neg (fun h => hx h.symm)] at hhead
      rw [if_neg hx]
      omega

theorem total_addhash {ht : HashTable} {gram : List Nat} (hwf : WF ht) :
    total_count (addhash ht gram) = total_count ht + 1 := by
  have hidx : hash_function gram ht.size < ht.table.length := by
    rw [hwf.len_eq]
    exact hash_lt _ hwf.size_pos
  have hget : ht.table.getD (hash_function gram ht.size) [] =
      ht.table.get ⟨hash_function gram ht.size, hidx⟩ :=
    getD_get _ _ _ hidx
  rw [addhash_def]
  cases hbi : bucket_inc gram (ht.table.getD (hash_function gram ht.size) []) with
  | some b2 =>
    obtain ⟨-, h2, -, -⟩ := bucket_inc_some hbi
    have hs := sum_map_set (fun b => (b.map NGramNode.count).sum) ht.table
      (hash_function gram ht.size) b2 hidx
    rw [hget] at h2
    simp only [total_count]
    omega
  | none =>
    have hs := sum_map_set (fun b => (b.map NGramNode.count).sum) ht.table
      (hash_function gram ht.size)
      (⟨gram.take N_GRAM, 1⟩ :: ht.table.getD (hash_function gram ht.size) []) hidx
    rw [← hget] at hs
    simp only [List.map_cons, List.sum_cons] at hs
    simp only [total_count]
    omega

theorem entries_addhash {ht : HashTable} {gram : List Nat} (hwf : WF ht)
    (hg : gram.take N_GRAM = gram) (x : List Nat) :
    entries (addhash ht gram) x = if x = gram then 1 else entries ht x := by
  have hidx : hash_function gram ht.size < ht.table.length := by
    rw [hwf.len_eq]
    exact hash_lt _ hwf.size_pos
  have hget : ht.table.getD (hash_function gram ht.size) [] =
      ht.table.get ⟨hash_function gram ht.size, hidx⟩ :=
    getD_get _ _ _ hidx
  rw [addhash_def]
  cases hbi : bucket_inc gram (ht.table.getD (hash_function gram ht.size) []) with
  | some b2 =>
    obtain ⟨-, -, -, h4⟩ := bucket_inc_some hbi
    have hs := sum_map_set (bentries x) ht.table (hash_function gram ht.size) b2 hidx
    have hb2 := h4 x
    rw [hget] at hb2
    by_cases hx : x = gram
    · rw [if_pos hx]
      have hex : ∃ n ∈ ht.table.getD (hash_function gram ht.size) [], n.gram = gram := by
        by_contra hall
        push_neg at hall
        rw [bucket_inc_none.mpr hall] at hbi
        simp at hbi
      obtain ⟨n, hn, hng⟩ := hex
      have h1 : entries ht x = 1 := by
        rw [hx, entries_eq_bentries hwf]
        have hle : bentries gram (ht.table.getD (hash_function gram ht.size) []) ≤ 1 :=
          bentries_le_one (hwf.chain_nodup _)
        have hge : 1 ≤ bentries gram (ht.table.getD (hash_function gram ht.size) []) :=
          bentries_pos hn hng
        omega
      have h1u := h1
      simp only [entries] at h1u
      have hbx : bentries x b2 =
          bentries x (ht.table.get ⟨hash_function gram ht.size, hidx⟩) := hb2
      simp only [entries]
      omega
    · rw [if_neg hx]
      simp only [entries]
      omega
  | none =>
    have hball := bucket_inc_none.mp hbi
    have hs := sum_map_set (bentries x) ht.table (hash_function gram ht.size)
      (⟨gram.take N_GRAM, 1⟩ :: ht.table.getD (hash_function gram ht.size) []) hidx
    rw [← hget] at hs
    have hhead : bentries x
        (⟨gram.take N_GRAM, 1⟩ :: ht.table.getD (hash_function gram ht.size) []) =
        (if gram = x then 1 else 0) +
          bentries x (ht.table.getD (hash_function gram ht.size) []) := by
      rw [bentries_cons, hg]
    by_cases hx : x = gram
    · rw [if_pos hx]
      have hE : entries ht x = 0 := by
        rw [hx, entries_eq_bentries hwf]
        exact bentries_eq_zero hball
      have hEu := hE
      simp only [entries] at hEu
      rw [if_pos hx.symm] at hhead
      simp only [entries]
      omega
    · rw [if_neg hx]
      rw [if_neg (fun h => hx h.symm)] at hhead
      simp only [entries]
      omega

theorem WF_addhash {ht : HashTable} {gram : List Nat} (hwf : WF ht)
    (hg : gram.take N_GRAM = gram) : WF (addhash ht gram) := by
  have hidx : hash_function gram ht.size < ht.table.length := by
    rw [hwf.len_eq]
    exact hash_lt _ hwf.size_pos
  rw [addhash_def]
  cases hbi : bucket_inc gram (ht.table.getD (hash_function gram ht.size) []) with
  | some b2 =>
    obtain ⟨h1, -, -, -⟩ := bucket_inc_some hbi
    refine ⟨hwf.size_pos, ?_, ?_, ?_⟩
    · simp [List.length_set, hwf.len_eq]
    · intro i n hn
      by_cases hij : i = hash_function gram ht.size
      · subst hij
        rw [getD_set_self _ _ _ _ hidx] at hn
        have hmem : n.gram ∈ b2.map NGramNode.gram :=
          List.mem_map_of_mem NGramNode.gram hn
        rw [h1] at hmem
        obtain ⟨n', hn', hg'⟩ := List.mem_map.mp hmem
        have := hwf.hash_ok _ n' hn'
        show hash_function n.gram ht.size = _
        rw [← hg']
        exact this
      · rw [getD_set_ne _ _ _ (fun h => hij h.symm)] at hn
        exact hwf.hash_ok i n hn
    · intro i
      by_cases hij : i = hash_function gram ht.size
      · subst hij
        rw [getD_set_self _ _ _ _ hidx]
        rw [h1]
        exact hwf.chain_nodup _
      · rw [getD_set_ne _ _ _ (fun h => hij h.symm)]
        exact hwf.chain_nodup i
  | none =>
    have hball := bucket_inc_none.mp hbi
    refine ⟨hwf.size_pos, ?_, ?_, ?_⟩
    · simp [List.length_set, hwf.len_eq]
    · intro i n hn
      by_cases hij : i = hash_function gram ht.size
      · subst hij
        rw [getD_set_self _ _ _ _ hidx] at hn
        rcases List.mem_cons.mp hn with h | h
        · rw [h]
          show hash_function (gram.take N_GRAM) ht.size = _
          rw [hg]
        · exact hwf.hash_ok _ n h
      · rw [getD_set_ne _ _ _ (fun h => hij h.symm)] at hn
        exact hwf.hash_ok i n hn
    · intro i
      by_cases hij : i = hash_function gram ht.size
      · subst hij
        rw [getD_set_self _ _ _ _ hidx]
        simp only [List.map_cons]
        rw [List.nodup_cons]
        constructor
        · show gram.take N_GRAM ∉ _
          rw [hg]
          intro hmem
          obtain ⟨n', hn', hg'⟩ := List.mem_map.mp hmem
          exact hball n' hn' hg'
        · exact hwf.chain_nodup _
      · rw [getD_set_ne _ _ _ (fun h => hij h.symm)]
        exact hwf.chain_nodup i

/-! ## Fresh-table lemmas -/

theorem getD_replicate {α : Type _} : ∀ (n i : Nat) (x : α),
    (List.replicate n x).getD i x = x := by
  intro n
  induction n with
  | zero => intro i x; cases i <;> rfl
  | succ m ih =>
    intro i x
    cases i with
    | zero => rfl
    | succ j =>
      rw [List.replicate_succ]
      exact ih j x

theorem WF_create {n : Nat} (h : 0 < n) : WF (create_hash_table n) := by
  have hb : ∀ i : Nat, (create_hash_table n).table.getD i [] = [] := fun i =>
    getD_replicate n i []
  refine ⟨h, by simp [create_hash_table], ?_, ?_⟩
  · intro i nn hnn
    rw [hb i] at hnn
    simp at hnn
  · intro i
    rw [hb i]
    simp

theorem mcount_create (n : Nat) (g : List Nat) :
    mcount (create_hash_table n) g = 0 := by
  simp [mcount, create_hash_table, List.map_replicate, bcount_nil,
    List.sum_replicate]

theorem entries_create (n : Nat) (g : List Nat) :
    entries (create_hash_table n) g = 0 := by
  simp [entries, create_hash_table, List.map_replicate, bentries_nil,
    List.sum_replicate]

theorem total_create (n : Nat) : total_count (create_hash_table n) = 0 := by
  simp [total_count, create_hash_table, List.map_replicate, List.sum_replicate]

/-! ## Fold lemmas -/

theorem foldl_WF : ∀ (gs : List (List Nat)) {ht : HashTable}, WF ht →
    (∀ g ∈ gs, g.take N_GRAM = g) → WF (gs.foldl addhash ht) := by
  intro gs
  induction gs with
  | nil => intro ht hwf _; exact hwf
  | cons g rest ih =>
    intro ht hwf hall
    simp only [List.foldl_cons]
    exact ih (WF_addhash hwf (hall g (List.mem_cons_self g rest)))
      (fun x hx => hall x (List.mem_cons_of_mem g hx))

theorem foldl_mcount : ∀ (gs : List (List Nat)) {ht : HashTable}, WF ht →
    (∀ g ∈ gs, g.take N_GRAM = g) → ∀ x : List Nat,
    mcount (gs.foldl addhash ht) x =
      mcount ht x + gs.countP (fun g => decide (g = x)) := by
  intro gs
  induction gs with
  | nil => intro ht _ _ x; simp
  | cons g rest ih =>
    intro ht hwf hall x
    simp only [List.foldl_cons, List.countP_cons]
    rw [ih (WF_addhash hwf (hall g (List.mem_cons_self g rest)))
      (fun y hy => hall y (List.mem_cons_of_mem g hy)) x,
      mcount_addhash hwf (hall g (List.mem_cons_self g rest)) x]
    simp only [decide_eq_true_eq]
    by_cases hx : x = g
    · rw [if_pos hx, if_pos hx.symm]
      omega
    · rw [if_neg hx, if_neg (fun h => hx h.symm)]
      omega

theorem foldl_total : ∀ (gs : List (List Nat)) {ht : HashTable}, WF ht →
    (∀ g ∈ gs, g.take N_GRAM = g) →
    total_count (gs.foldl addhash ht) = total_count ht + gs.length := by
  intro gs
  induction gs with
  | nil => intro ht _ _; simp
  | cons g rest ih =>
    intro ht hwf hall
    simp only [List.foldl_cons, List.length_cons]
    rw [ih (WF_addhash hwf (hall g (List.mem_cons_self g rest)))
      (fun y hy => hall y (List.mem_cons_of_mem g hy)),
      total_addhash hwf]
    omega

theorem foldl_entries : ∀ (gs : List (List Nat)) {ht : HashTable}, WF ht →
    (∀ g ∈ gs, g.take N_GRAM = g) →
    (∀ x, entries ht x = if mcount ht x = 0 then 0 else 1) → ∀ x : List Nat,
    entries (gs.foldl addhash ht) x =
      if mcount (gs.foldl addhash ht) x = 0 then 0 else 1 := by
  intro gs
  induction gs with
  | nil => intro ht _ _ hinv x; exact hinv x
  | cons g rest ih =>
    intro ht hwf hall hinv x
    simp only [List.foldl_cons]
    apply ih (WF_addhash hwf (hall g (List.mem_cons_self g rest)))
      (fun y hy => hall y (List.mem_cons_of_mem g hy))
    intro y
    rw [entries_addhash hwf (hall g (List.mem_cons_self g rest)) y,
      mcount_addhash hwf (hall g (List.mem_cons_self g rest)) y]
    by_cases hy : y = g
    · rw [if_pos hy, if_pos hy, if_neg (by omega)]
    · rw [if_neg hy, if_neg hy, hinv y]
      simp

/-! ## Built-table lemmas -/

theorem generate_eq_fold (buf : List Nat) (ht : HashTable) :
    generate_ngrams buf ht =
      ((List.range ((c_str buf).length + 1 - N_GRAM)).map
        (ngram_at (c_str buf))).foldl addhash ht := by
  simp only [generate_ngrams]
  rw [List.foldl_map]

theorem ngram_take (text : List Nat) (i : Nat) :
    (ngram_at text i).take N_GRAM = ngram_at text i := by
  simp [ngram_at, List.take_take]

theorem stable_windows (buf : List Nat) :
    ∀ g ∈ (List.range ((c_str buf).length + 1 - N_GRAM)).map
      (ngram_at (c_str buf)), g.take N_GRAM = g := by
  intro g hg
  obtain ⟨i, -, rfl⟩ := List.mem_map.mp hg
  exact ngram_take _ i

theorem WF_build (buf : List Nat) : WF (build_shingle_set buf) := by
  rw [build_shingle_set, generate_eq_fold]
  exact foldl_WF _ (WF_create (by decide)) (stable_windows buf)

theorem mcount_build (buf g : List Nat) :
    mcount (build_shingle_set buf) g = window_count buf g := by
  rw [build_shingle_set, generate_eq_fold,
    foldl_mcount _ (WF_create (by decide)) (stable_windows buf) g,
    mcount_create, List.countP_map, window_count,
    ← List.countP_eq_length_filter]
  rw [Nat.zero_add]
  exact rfl

theorem total_build (buf : List Nat) :
    total_count (build_shingle_set buf) = (c_str buf).length + 1 - N_GRAM := by
  rw [build_shingle_set, generate_eq_fold,
    foldl_total _ (WF_create (by decide)) (stable_windows buf), total_create]
  simp

theorem entries_build (buf g : List Nat) :
    entries (build_shingle_set buf) g =
      if mcount (build_shingle_set buf) g = 0 then 0 else 1 := by
  rw [build_shingle_set, generate_eq_fold]
  apply foldl_entries _ (WF_create (by decide)) (stable_windows buf)
  intro x
  rw [mcount_create, entries_create]
  simp

/-! ## Relating the code's traversals to the multiset view -/

theorem sum_map_flatten {α : Type _} (L : List (List α)) (f : α → Nat) :
    (L.map (fun b => (b.map f).sum)).sum = ((L.flatten).map f).sum := by
  induction L with
  | nil => simp
  | cons b rest ih => simp [ih]

theorem grams_eq (ht : HashTable) :
    ht_grams ht = ht.table.flatten.map NGramNode.gram := by
  rw [ht_grams, List.map_flatten]

theorem nodup_grams {ht : HashTable} (hwf : WF ht) : (ht_grams ht).Nodup := by
  rw [ht_grams, List.nodup_flatten]
  constructor
  · intro l hl
    obtain ⟨bl, hbl, rfl⟩ := List.mem_map.mp hl
    obtain ⟨⟨j, hj⟩, rfl⟩ := List.mem_iff_get.mp hbl
    have := hwf.chain_nodup j
    rw [getD_get _ _ [] hj] at this
    exact this
  · rw [List.pairwise_map, List.pairwise_iff_get]
    intro i j hij
    intro g hgi hgj
    obtain ⟨n, hn, hng⟩ := List.mem_map.mp hgi
    obtain ⟨n', hn', hng'⟩ := List.mem_map.mp hgj
    have hi := hwf.hash_ok i.val n (by
      rw [getD_get _ _ [] i.isLt]
      exact hn)
    have hj := hwf.hash_ok j.val n' (by
      rw [getD_get _ _ [] j.isLt]
      exact hn')
    rw [hng] at hi
    rw [hng'] at hj
    have heq : i.val = j.val := by rw [← hi, ← hj]
    have hlt : i.val < j.val := hij
    omega

theorem sum_nodes_eq_keys {ht : HashTable} (hwf : WF ht) (F : List Nat → Nat) :
    ((ht.table.flatten).map (fun n => F n.gram)).sum = ∑ g ∈ keys ht, F g := by
  rw [keys, List.sum_toFinset _ (nodup_grams hwf), grams_eq, List.map_map]
  exact rfl

theorem mcount_nodes {ht : HashTable} (hwf : WF ht) :
    ∀ n ∈ ht.table.flatten, mcount ht n.gram = n.count := by
  intro n hn
  rw [List.mem_flatten] at hn
  obtain ⟨bl, hbl, hnbl⟩ := hn
  exact mcount_of_node hwf hbl hnbl

theorem mcount_zero_of_not_key {ht : HashTable} {g : List Nat}
    (h : g ∉ keys ht) : mcount ht g = 0 := by
  rw [keys, List.mem_toFinset] at h
  apply List.sum_eq_zero
  intro x hx
  obtain ⟨bl, hbl, rfl⟩ := List.mem_map.mp hx
  apply bcount_eq_zero
  intro n hn hng
  apply h
  rw [ht_grams, List.mem_flatten]
  exact ⟨bl.map NGramNode.gram, List.mem_map_of_mem _ hbl, by
    rw [← hng]
    exact List.mem_map_of_mem _ hn⟩

theorem intersection_eq_spec {A B : HashTable} (hA : WF A) (hB : WF B) :
    get_intersection_count A B = spec_intersection A B := by
  have h1 : get_intersection_count A B =
      ((A.table.flatten).map (node_contrib B)).sum := by
    simp only [get_intersection_count]
    exact sum_map_flatten _ _
  rw [h1]
  have h2 : (A.table.flatten).map (node_contrib B) =
      (A.table.flatten).map (fun n => min (mcount A n.gram) (mcount B n.gram)) := by
    apply List.map_congr_left
    intro n hn
    rw [node_contrib_eq hB n, mcount_nodes hA n hn]
  rw [h2, sum_nodes_eq_keys hA (fun g => min (mcount A g) (mcount B g)),
    spec_intersection]
  symm
  apply Finset.sum_subset Finset.inter_subset_left
  intro g hgA hgn
  have hgB : g ∉ keys B := fun hB' => hgn (Finset.mem_inter.mpr ⟨hgA, hB'⟩)
  rw [mcount_zero_of_not_key hgB]
  simp

theorem total_eq_spec {A : HashTable} (hA : WF A) :
    total_count A = spec_total A := by
  have h1 : total_count A = ((A.table.flatten).map NGramNode.count).sum := by
    simp only [total_count]
    exact sum_map_flatten _ _
  rw [h1]
  have h2 : (A.table.flatten).map NGramNode.count =
      (A.table.flatten).map (fun n => mcount A n.gram) := by
    apply List.map_congr_left
    intro n hn
    rw [mcount_nodes hA n hn]
  rw [h2, spec_total]
  exact sum_nodes_eq_keys hA (mcount A)

theorem jaccard_eq_spec {A B : HashTable} (hA : WF A) (hB : WF B) :
    calculate_jaccard_similarity A B = spec_score A B := by
  simp only [calculate_jaccard_similarity, spec_score, get_union_count]
  rw [intersection_eq_spec hA hB, total_eq_spec hA, total_eq_spec hB]
  push_cast
  rfl

theorem spec_intersection_comm (A B : HashTable) :
    spec_intersection A B = spec_intersection B A := by
  rw [spec_intersection, spec_intersection, Finset.inter_comm]
  apply Finset.sum_congr rfl
  intro g _
  rw [Nat.min_comm]

theorem spec_score_comm (A B : HashTable) :
    spec_score A B = spec_score B A := by
  simp only [spec_score]
  rw [spec_intersection_comm A B,
    show (spec_total A : Int) + (spec_total B : Int) =
      (spec_total B : Int) + (spec_total A : Int) from add_comm _ _]

theorem spec_intersection_le_left (A B : HashTable) :
    spec_intersection A B ≤ spec_total A := by
  rw [spec_intersection, spec_total]
  calc ∑ g ∈ keys A ∩ keys B, min (mcount A g) (mcount B g)
      ≤ ∑ g ∈ keys A ∩ keys B, mcount A g :=
        Finset.sum_le_sum (fun g _ => min_le_left _ _)
    _ ≤ ∑ g ∈ keys A, mcount A g :=
        Finset.sum_le_sum_of_subset Finset.inter_subset_left

theorem spec_intersection_le_right (A B : HashTable) :
    spec_intersection A B ≤ spec_total B := by
  rw [spec_intersection, spec_total]
  calc ∑ g ∈ keys A ∩ keys B, min (mcount A g) (mcount B g)
      ≤ ∑ g ∈ keys A ∩ keys B, mcount B g :=
        Finset.sum_le_sum (fun g _ => min_le_right _ _)
    _ ≤ ∑ g ∈ keys B, mcount B g :=
        Finset.sum_le_sum_of_subset Finset.inter_subset_right

theorem spec_score_range (A B : HashTable) :
    0 ≤ spec_score A B ∧ spec_score A B ≤ 1 := by
  simp only [spec_score]
  have h1 : spec_intersection A B ≤ spec_total A := spec_intersection_le_left A B
  have h2 : spec_intersection A B ≤ spec_total B := spec_intersection_le_right A B
  by_cases hu : ((spec_total A : Int) + (spec_total B : Int) -
      (spec_intersection A B : Int) = 0)
  · rw [if_pos hu]
    norm_num
  · rw [if_neg hu]
    have hu' : (0 : Int) < (spec_total A : Int) + (spec_total B : Int) -
        (spec_intersection A B : Int) := by omega
    have huq : (0 : ℚ) < (((spec_total A : Int) + (spec_total B : Int) -
        (spec_intersection A B : Int) : Int) : ℚ) := by exact_mod_cast hu'
    constructor
    · apply div_nonneg
      · exact_mod_cast Int.natCast_nonneg (spec_intersection A B)
      · exact le_of_lt huq
    · rw [div_le_one huq]
      have : (spec_intersection A B : Int) ≤ (spec_total A : Int) +
          (spec_total B : Int) - (spec_intersection A B : Int) := by omega
      exact_mod_cast this

theorem spec_intersection_self (A : HashTable) :
    spec_intersection A A = spec_total A := by
  rw [spec_intersection, spec_total, Finset.inter_self]
  apply Finset.sum_congr rfl
  intro g _
  exact Nat.min_self _

theorem spec_score_self {A : HashTable} (h : spec_total A ≠ 0) :
    spec_score A A = 1 := by
  simp only [spec_score, spec_intersection_self]
  have heq : (spec_total A : Int) + (spec_total A : Int) -
      (spec_total A : Int) = (spec_total A : Int) := by ring
  rw [heq, if_neg (by exact_mod_cast h)]
  apply div_self
  exact_mod_cast h

/-! ## Normalization lemmas -/

theorem isalnum_iff (x : Nat) : isalnum x = true ↔
    ((48 ≤ x ∧ x ≤ 57) ∨ (65 ≤ x ∧ x ≤ 90) ∨ (97 ≤ x ∧ x ≤ 122)) := by
  simp [isalnum]

theorem keep_byte_iff (x : Nat) : keep_byte x = true ↔
    ((48 ≤ x ∧ x ≤ 57) ∨ (65 ≤ x ∧ x ≤ 90) ∨ (97 ≤ x ∧ x ≤ 122) ∨
      x = 32 ∨ 128 ≤ x) := by
  simp [keep_byte, isalnum]
  omega

theorem norm_byte_char (x : Nat) :
    (if keep_byte (lower_byte x) = true then some (lower_byte x) else none) =
      spec_norm_byte x := by
  by_cases h1 : 65 ≤ x ∧ x ≤ 90
  · have hl : lower_byte x = x + 32 := if_pos h1
    have hk : keep_byte (x + 32) = true := (keep_byte_iff _).mpr (by omega)
    rw [spec_norm_byte, if_pos h1, hl, hk]
    simp
  · have hl : lower_byte x = x := if_neg h1
    rw [spec_norm_byte, if_neg h1, hl]
    by_cases h2 : 128 ≤ x
    · have hk : keep_byte x = true := (keep_byte_iff _).mpr (by omega)
      rw [if_pos h2, hk]
      simp
    · rw [if_neg h2]
      by_cases h3 : isalnum x = true ∨ x = 32
      · have hk : keep_byte x = true := by
          apply (keep_byte_iff _).mpr
          rcases h3 with h3 | h3
          · rcases (isalnum_iff x).mp h3 with h | h | h
            · exact Or.inl h
            · exact Or.inr (Or.inl h)
            · exact Or.inr (Or.inr (Or.inl h))
          · exact Or.inr (Or.inr (Or.inr (Or.inl h3)))
        rw [if_pos h3, hk]
        simp
      · have hk : keep_byte x = false := by
          cases hkb : keep_byte x with
          | false => rfl
          | true =>
            exfalso
            apply h3
            rcases (keep_byte_iff x).mp hkb with h | h | h | h | h
            · exact Or.inl ((isalnum_iff x).mpr (Or.inl h))
            · exact absurd h h1
            · exact Or.inl ((isalnum_iff x).mpr (Or.inr (Or.inr h)))
            · exact Or.inr h
            · exact absurd h h2
        rw [if_neg h3, hk]
        simp

theorem normalize_eq_spec : ∀ (buf : List Nat), (∀ b ∈ buf, b ≠ 0) →
    normalize buf = buf.filterMap spec_norm_byte := by
  intro buf
  induction buf with
  | nil => intro _; rfl
  | cons b rest ih =>
    intro h
    have hb : b ≠ 0 := h b (List.mem_cons_self b rest)
    have hnr : remove_punctuation (to_lower_case rest) =
        rest.filterMap spec_norm_byte :=
      ih (fun x hx => h x (List.mem_cons_of_mem b hx))
    have hlb : lower_byte b ≠ 0 := by
      by_cases hc : 65 ≤ b ∧ b ≤ 90
      · rw [lower_byte, if_pos hc]; omega
      · rw [lower_byte, if_neg hc]; exact hb
    rw [List.filterMap_cons, ← norm_byte_char b]
    simp only [normalize, to_lower_case, if_neg hb, remove_punctuation,
      if_neg hlb]
    cases hk : keep_byte (lower_byte b) with
    | true => simp [hnr]
    | false => simp [hnr]

/-! ## NUL-termination lemmas -/

theorem c_str_idem (buf : List Nat) : c_str (c_str buf) = c_str buf := by
  simp [c_str, List.takeWhile_takeWhile]

theorem c_str_cons_ne {b : Nat} (rest : List Nat) (hb : b ≠ 0) :
    c_str (b :: rest) = b :: c_str rest := by
  simp [c_str, hb]

theorem to_lower_c_str (buf : List Nat) :
    to_lower_case (c_str buf) = to_lower_case buf := by
  induction buf with
  | nil => rfl
  | cons b rest ih =>
    by_cases hb : b = 0
    · subst hb
      have h0 : c_str (0 :: rest) = [] := by simp [c_str]
      rw [h0]
      simp [to_lower_case]
    · rw [c_str_cons_ne rest hb]
      simp only [to_lower_case, if_neg hb]
      rw [ih]

theorem remove_punct_c_str (buf : List Nat) :
    remove_punctuation (c_str buf) = remove_punctuation buf := by
  induction buf with
  | nil => rfl
  | cons b rest ih =>
    by_cases hb : b = 0
    · subst hb
      have h0 : c_str (0 :: rest) = [] := by simp [c_str]
      rw [h0]
      simp [remove_punctuation]
    · rw [c_str_cons_ne rest hb]
      simp only [remove_punctuation, if_neg hb]
      rw [ih]

theorem generate_c_str (buf : List Nat) (ht : HashTable) :
    generate_ngrams (c_str buf) ht = generate_ngrams buf ht := by
  simp only [generate_ngrams, c_str_idem]

theorem normalize_c_str (buf : List Nat) :
    normalize (c_str buf) = normalize buf := by
  rw [normalize, normalize, to_lower_c_str]

/-! ## Short-text lemma -/

theorem build_short {buf : List Nat} (h : (c_str buf).length < N_GRAM) :
    build_shingle_set buf = create_hash_table HASH_TABLE_SIZE := by
  rw [build_shingle_set]
  simp only [generate_ngrams]
  rw [show (c_str buf).length + 1 - N_GRAM = 0 from by
    have : N_GRAM = 3 := rfl
    omega]
  simp

/-! ## The claims -/

/-- Claim C1: for every pair of ShingleSets A and B (as the program builds
them), the similarity score equals Intersection / Union, where Intersection is
the sum over every shingle key present in both A and B of
min(countA(key), countB(key)), Union = total(A) + total(B) - Intersection, and
the score is 0 when the union is 0. -/
theorem claim_C1 (tA tB : List Nat) :
    calculate_jaccard_similarity (build_shingle_set tA) (build_shingle_set tB) =
      spec_score (build_shingle_set tA) (build_shingle_set tB) :=
  jaccard_eq_spec (WF_build tA) (WF_build tB)

/-- Claim C2: ShingleSet construction slides one window per byte offset from 0
to len - n inclusive (so the total stored count is len + 1 - n, and the set is
the untouched fresh table when len < n), and each window's exact n-byte
substring has its count incremented, inserting with count 1 when absent (so
the stored count of every gram is its window count). -/
theorem claim_C2 (buf g : List Nat) :
    mcount (build_shingle_set buf) g = window_count buf g ∧
    total_count (build_shingle_set buf) = (c_str buf).length + 1 - N_GRAM ∧
    ((c_str buf).length < N_GRAM →
      build_shingle_set buf = create_hash_table HASH_TABLE_SIZE) :=
  ⟨mcount_build buf g, total_build buf, fun h => build_short h⟩

theorem claim_C2_witness :
    build_shingle_set [97, 98] = create_hash_table HASH_TABLE_SIZE ∧
    mcount (build_shingle_set [97, 98, 99]) [97, 98, 99] =
      window_count [97, 98, 99] [97, 98, 99] :=
  ⟨(claim_C2 [97, 98] []).2.2 (by decide), (claim_C2 [97, 98, 99] [97, 98, 99]).1⟩

/-- Claim C3: the similarity computation is symmetric in the two texts. -/
theorem claim_C3 (tA tB : List Nat) :
    calculate_jaccard_similarity (build_shingle_set tA) (build_shingle_set tB) =
      calculate_jaccard_similarity (build_shingle_set tB) (build_shingle_set tA) := by
  rw [jaccard_eq_spec (WF_build tA) (WF_build tB),
    jaccard_eq_spec (WF_build tB) (WF_build tA), spec_score_comm]

/-- Claim C4: for every pair of ShingleSets the program builds, the similarity
result lies in [0, 1]. -/
theorem claim_C4 (tA tB : List Nat) :
    0 ≤ calculate_jaccard_similarity (build_shingle_set tA)
        (build_shingle_set tB) ∧
    calculate_jaccard_similarity (build_shingle_set tA)
        (build_shingle_set tB) ≤ 1 := by
  rw [jaccard_eq_spec (WF_build tA) (WF_build tB)]
  exact spec_score_range _ _

/-- Claim C5: for every text producing at least one shingle (its C string
holds at least N_GRAM bytes), the self-similarity is exactly 1. -/
theorem claim_C5 (X : List Nat) (h : N_GRAM ≤ (c_str X).length) :
    calculate_jaccard_similarity (build_shingle_set X)
      (build_shingle_set X) = 1 := by
  rw [jaccard_eq_spec (WF_build X) (WF_build X)]
  apply spec_score_self
  rw [← total_eq_spec (WF_build X), total_build]
  have h3 : N_GRAM = 3 := rfl
  omega

theorem claim_C5_witness :
    N_GRAM ≤ (c_str [97, 98, 99]).length ∧
    calculate_jaccard_similarity (build_shingle_set [97, 98, 99])
      (build_shingle_set [97, 98, 99]) = 1 :=
  ⟨by decide, claim_C5 [97, 98, 99] (by decide)⟩

/-- Claim C6: on every NUL-free buffer, normalization maps each ASCII
uppercase letter to its lowercase counterpart, keeps every other byte ≤ 0x7F
exactly when it is an ASCII alphanumeric or a space, and keeps every high-bit
byte verbatim without case-folding it — byte for byte as `spec_norm_byte`
prescribes. -/
theorem claim_C6 (buf : List Nat) (h : ∀ b ∈ buf, b ≠ 0) :
    normalize buf = buf.filterMap spec_norm_byte :=
  normalize_eq_spec buf h

theorem claim_C6_witness :
    (∀ b ∈ [65, 46, 66, 32, 200, 99], b ≠ 0) ∧
    normalize [65, 46, 66, 32, 200, 99] =
      List.filterMap spec_norm_byte [65, 46, 66, 32, 200, 99] :=
  ⟨by decide, claim_C6 [65, 46, 66, 32, 200, 99] (by decide)⟩

/-- Claim C7: in the ShingleSet built from any text, every distinct shingle
appears as exactly one entry (one entry when its window count is positive,
none otherwise — so colliding distinct shingles stay separate entries), and
that entry's count equals the number of occurrences of that exact byte
sequence among the sliding windows. -/
theorem claim_C7 (buf g : List Nat) :
    entries (build_shingle_set buf) g =
      (if window_count buf g = 0 then 0 else 1) ∧
    mcount (build_shingle_set buf) g = window_count buf g := by
  constructor
  · rw [entries_build, mcount_build]
  · exact mcount_build buf g

/-- Claim C8: the driver reads each input file into a bounded buffer of at
most MAX_FILE_SIZE (1,000,000) bytes: the first MAX_FILE_SIZE - 1 content
bytes followed by a NUL terminator, and bytes beyond the bound are silently
dropped (the read is a total function of the content, with no error path). -/
theorem claim_C8 (content : List Nat) :
    (read_into_buffer content).length ≤ MAX_FILE_SIZE ∧
    read_into_buffer content = content.take (MAX_FILE_SIZE - 1) ++ [0] ∧
    read_into_buffer content =
      read_into_buffer (content.take (MAX_FILE_SIZE - 1)) := by
  refine ⟨?_, rfl, ?_⟩
  · rw [read_into_buffer]
    simp only [List.length_append, List.length_take, List.length_cons,
      List.length_nil]
    have hM : MAX_FILE_SIZE = 1000000 := rfl
    omega
  · rw [read_into_buffer, read_into_buffer, List.take_take]
    simp

/-- Claim C9: every core operation treats a buffer holding a NUL byte as
ending at the first NUL: lowercasing, punctuation removal and n-gram
generation see only the prefix before it, and the bytes after it do not
affect the similarity score. -/
theorem claim_C9 (buf : List Nat) (_h : 0 ∈ buf) (ht : HashTable)
    (other : List Nat) :
    to_lower_case buf = to_lower_case (c_str buf) ∧
    remove_punctuation buf = remove_punctuation (c_str buf) ∧
    generate_ngrams buf ht = generate_ngrams (c_str buf) ht ∧
    calculate_jaccard_similarity (build_shingle_set (normalize buf))
        (build_shingle_set (normalize other)) =
      calculate_jaccard_similarity (build_shingle_set (normalize (c_str buf)))
        (build_shingle_set (normalize other)) := by
  refine ⟨(to_lower_c_str buf).symm, (remove_punct_c_str buf).symm,
    (generate_c_str buf ht).symm, ?_⟩
  rw [normalize_c_str]

theorem claim_C9_witness :
    0 ∈ [97, 0, 66] ∧
    (to_lower_case [97, 0, 66] = to_lower_case (c_str [97, 0, 66]) ∧
      remove_punctuation [97, 0, 66] = remove_punctuation (c_str [97, 0, 66]) ∧
      generate_ngrams [97, 0, 66] (create_hash_table 7) =
        generate_ngrams (c_str [97, 0, 66]) (create_hash_table 7) ∧
      calculate_jaccard_similarity (build_shingle_set (normalize [97, 0, 66]))
          (build_shingle_set (normalize [99])) =
        calculate_jaccard_similarity
          (build_shingle_set (normalize (c_str [97, 0, 66])))
          (build_shingle_set (normalize [99]))) :=
  ⟨by decide, claim_C9 [97, 0, 66] (by decide) (create_hash_table 7) [99]⟩

/-- Claim C10: for every string and every table of positive size with one
bucket list per slot, the hash value is below the table size, so the bucket
accesses of addhash and get_intersection_count stay within the bucket
array. -/
theorem claim_C10 (s : List Nat) (ht : HashTable) (h : 0 < ht.size)
    (hlen : ht.table.length = ht.size) :
    hash_function s ht.size < ht.size ∧
    hash_function s ht.size < ht.table.length := by
  refine ⟨hash_lt s h, ?_⟩
  rw [hlen]
  exact hash_lt s h

theorem claim_C10_witness :
    0 < (create_hash_table 7).size ∧
    (create_hash_table 7).table.length = (create_hash_table 7).size ∧
    hash_function [104, 105] (create_hash_table 7).size <
      (create_hash_table 7).size ∧
    hash_function [104, 105] (create_hash_table 7).size <
      (create_hash_table 7).table.length :=
  ⟨by decide, by decide,
    (claim_C10 [104, 105] (create_hash_table 7) (by decide) (by decide)).1,
    (claim_C10 [104, 105] (create_hash_table 7) (by decide) (by decide)).2⟩

end PlagiarismCheck
